import Mathlib

/-!
Shallow embedding of the dhcpd-parser core: `src/leases.rs` and `src/parser.rs`.

The token stream (`lex.rs`) and the instant constructor (`common.rs`, `Date`)
are external collaborators of the core (spec section 6) and are not part of the
two source files; they are modelled from the spec's contracts.  All other
definitions are translated directly from the Rust source.  Rust's
`Option`-returning iterator cursor is modelled by a `List` whose head is the
peeked token; `iter.next()` drops the head.  Rust panics (`expect`, `unwrap`,
`assert_eq!`) are a distinct outcome constructor, separate from the `Err`
failure values that the functions return.  The `while` loops are modelled with
an explicit fuel parameter; `none` means the fuel ran out, so an input on which
the function returns `none` at every fuel diverges.
-/

namespace Dhcpd

/-- Modelled from the spec: the instant constructor's output (`common::Date`,
not under src/) is "a totally-ordered, comparable point-in-time value"; we
model instants as integers. -/
abbrev Date := Int

/-- Modelled from the spec: the instant constructor `Date::from` (collaborator
contract, spec section 6) "returns a totally-ordered comparable point-in-time
value, or fails if the strings do not parse"; we model it as an arbitrary
function from the three strings to `Except String Date`, passed as a parameter
to the parsing functions. -/
abbrev DateFrom := String → String → String → Except String Date

/-- `ConfigKeyword` from parser.rs. -/
inductive ConfigKeyword
  | lease
  | comment
deriving DecidableEq

/-- `ConfigKeyword::to_string` from parser.rs. -/
def ConfigKeyword.to_string : ConfigKeyword → String
  | .lease => "lease"
  | .comment => "#"

/-- `LeaseKeyword` from leases.rs. -/
inductive LeaseKeyword
  | abandoned
  | binding
  | clientHostname
  | cltt
  | ends
  | next
  | hardware
  | hostname
  | rewind
  | set
  | starts
  | uid
deriving DecidableEq

/-- `LeaseKeyword::to_string` from leases.rs. -/
def LeaseKeyword.to_string : LeaseKeyword → String
  | .abandoned => "abandoned"
  | .binding => "binding"
  | .clientHostname => "client-hostname"
  | .cltt => "cltt"
  | .ends => "ends"
  | .hardware => "hardware"
  | .hostname => "hostname"
  | .next => "next"
  | .rewind => "rewind"
  | .set => "set"
  | .starts => "starts"
  | .uid => "uid"

/-- Modelled from the spec: the token stream contract (spec section 6)
classifies each token as a statement terminator (`Endl`), a brace
(`Paren`), a recognized top-level declaration keyword (`Decl`), a recognized
per-lease option keyword (`Opt`), or opaque literal text (`Plaintext`).
These are exactly the `LexItem` variants used by parser.rs and leases.rs. -/
inductive LexItem
  | Endl
  | Paren (c : Char)
  | Decl (k : ConfigKeyword)
  | Opt (k : LeaseKeyword)
  | Plaintext (s : String)
deriving DecidableEq

/-- Modelled from the spec: the stable human-readable rendering of a token
(the `to_string` used throughout leases.rs); the terminator renders as a
semicolon, braces as themselves, keywords by their keyword tables, a literal
as its text. -/
def LexItem.to_string : LexItem → String
  | .Endl => ";"
  | .Paren c => String.singleton c
  | .Decl k => k.to_string
  | .Opt k => k.to_string
  | .Plaintext s => s

/-- `LeaseDates` from leases.rs. -/
structure LeaseDates where
  starts : Option Date
  ends : Option Date
deriving DecidableEq

/-- `Hardware` from leases.rs. -/
structure Hardware where
  h_type : String
  mac : String
deriving DecidableEq

/-- `Lease` from leases.rs. -/
structure Lease where
  ip : String
  dates : LeaseDates
  hardware : Option Hardware
  uid : Option String
  client_hostname : Option String
  hostname : Option String
  abandoned : Bool
  cltt : Option Date
  binding : Option String
  next_binding : Option String
  rewind_binding : Option String
deriving DecidableEq

/-- `Lease::new` from leases.rs. -/
def Lease.new : Lease :=
  { ip := "localhost"
    dates := { starts := none, ends := none }
    hardware := none
    uid := none
    client_hostname := none
    hostname := none
    abandoned := false
    cltt := none
    binding := none
    next_binding := none
    rewind_binding := none }

/-- `Lease::is_active_at` from leases.rs: false when a start instant is
present and greater than `when`, false when an end instant is present and
less than `when`, true otherwise. -/
def Lease.is_active_at (l : Lease) (when : Date) : Bool :=
  if (match l.dates.starts with
      | some s => decide (s > when)
      | none => false) then
    false
  else if (match l.dates.ends with
      | some e => decide (e < when)
      | none => false) then
    false
  else
    true

/-- `LeasesField` from leases.rs. -/
inductive LeasesField
  | clientHostname
  | hostname
  | leasedIP
  | mac
deriving DecidableEq

/-- `LeasesField::value_getter` from leases.rs (the boxed closure is modelled
as a plain function, as the spec's design notes recommend). -/
def LeasesField.value_getter : LeasesField → Lease → Option String
  | .clientHostname, l => l.client_hostname
  | .hostname, l => l.hostname
  | .leasedIP, l => some l.ip
  | .mac, l =>
    match l.hardware with
    | some h => some h.mac
    | none => none

/-- `Leases` from leases.rs: a wrapper around the ordered vector of leases. -/
structure Leases where
  val : List Lease
deriving DecidableEq

/-- `Leases::new`. -/
def Leases.new : Leases := ⟨[]⟩

/-- `Leases::push`: append at the end of the log. -/
def Leases.push (ls : Leases) (l : Lease) : Leases := ⟨ls.val ++ [l]⟩

/-- `Leases::all`. -/
def Leases.all (ls : Leases) : List Lease := ls.val

/-- `Leases::active_by` from leases.rs: clone the log, reverse it, and return
the first record that is active at `active_at`, not abandoned, and whose
selected field value equals `value`. -/
def Leases.active_by (ls : Leases) (field : LeasesField) (value : String)
    (active_at : Date) : Option Lease :=
  ls.val.reverse.find? (fun l =>
    l.is_active_at active_at && !l.abandoned &&
      (match field.value_getter l with
       | some v => v == value
       | none => false))

/-- `Leases::by_leased` from leases.rs: reverse scan, first record whose `ip`
equals the argument. -/
def Leases.by_leased (ls : Leases) (ip : String) : Option Lease :=
  ls.val.reverse.find? (fun l => l.ip == ip)

/-- `Leases::by_leased_all` from leases.rs: forward scan collecting every
record whose `ip` equals the argument. -/
def Leases.by_leased_all (ls : Leases) (ip : String) : List Lease :=
  ls.val.filter (fun l => l.ip == ip)

/-- `Leases::by_mac` from leases.rs. -/
def Leases.by_mac (ls : Leases) (mac : String) : Option Lease :=
  ls.val.reverse.find? (fun l =>
    match l.hardware with
    | some h => h.mac == mac
    | none => false)

/-- `Leases::hostnames` from leases.rs: fold over the log inserting every
hostname that is present (`is_some`) into a set (`HashSet` is modelled as
`Finset`). -/
def Leases.hostnames (ls : Leases) : Finset String :=
  ls.val.foldl (fun r l =>
    match l.hostname with
    | some h => insert h r
    | none => r) ∅

/-- `Leases::client_hostnames` from leases.rs: same fold over the
client-hostname field. -/
def Leases.client_hostnames (ls : Leases) : Finset String :=
  ls.val.foldl (fun r l =>
    match l.client_hostname with
    | some h => insert h r
    | none => r) ∅

/-- `unquote_hostname` from leases.rs: `hn.replace("\x22", "")` removes every
double-quote character (the pattern is a single character, so replacing each
occurrence by the empty string is exactly filtering that character out). -/
def unquote_hostname (hn : String) : String :=
  ⟨hn.data.filter (fun c => c ≠ '\x22')⟩

/-- Outcome of a fallible parsing function: `ok` models Rust `Ok`, `err`
models Rust `Err(String)`, and `panic` models a Rust panic (`expect`,
`unwrap`, or a failed `assert_eq!`), which is not a value of the Rust result
type at all. -/
inductive PResult (α : Type)
  | ok (a : α)
  | err (s : String)
  | panic (s : String)
deriving DecidableEq

/-- Outcome of one iteration of the `parse_lease` statement loop:
`cont l rest` means the loop continues with record `l` and cursor `rest`
(after the unconditional `iter.next()` at the bottom of the loop),
`done l rest` means `parse_lease` returns `Ok` with the cursor at `rest`. -/
inductive StepResult
  | cont (l : Lease) (rest : List LexItem)
  | done (l : Lease) (rest : List LexItem)
  | err (s : String)
  | panic (s : String)
deriving DecidableEq

/-- The common tail of most statement branches in `parse_lease`: peek must be
the semicolon (`Endl`); end of stream is the `expect("Semicolon expected")`
panic, any other token is the named `Err`; on success the loop continues with
the updated record `l2` just past the semicolon (the bottom `iter.next()`).
For the `uid` / hostname / `abandoned` branches the source mutates the record
before this check; since any `Err` or panic aborts the whole parse and
discards the record, performing the update only on the success path is
observationally identical. -/
def semiThen (l2 : Lease) (r : List LexItem) : StepResult :=
  match r with
  | [] => .panic "Semicolon expected"
  | LexItem.Endl :: r2 => .cont l2 r2
  | s :: _ => .err ("Expected semicolon, found " ++ s.to_string)

/-- The shared shape of the `starts` / `ends` / `cltt` branches of
`parse_lease` (three verbatim copies in the source): consume three literal
tokens (weekday, date, time), then if the next token does not render as a
semicolon treat it as a timezone token, consume it and require the semicolon;
then build the instant with `Date::from` (its failure propagates as `Err` via
`?`) and store it with `upd`.  `m1 m2 m3` are the three `expect` messages of
the branch. -/
def dateArm (df : DateFrom) (l : Lease) (upd : Lease → Date → Lease)
    (m1 m2 m3 : String) (r : List LexItem) : StepResult :=
  match r with
  | [] => .panic m1
  | w :: r1 =>
    match r1 with
    | [] => .panic m2
    | d :: r2 =>
      match r2 with
      | [] => .panic m3
      | t :: r3 =>
        match r3 with
        | [] => .panic "Timezone or semicolon expected"
        | tz :: r4 =>
          if tz.to_string ≠ ";" then
            match r4 with
            | [] => .panic "Semicolon expected"
            | LexItem.Endl :: r5 =>
              match df w.to_string d.to_string t.to_string with
              | .error e => .err e
              | .ok dt => .cont (upd l dt) r5
            | s :: _ => .err ("Expected semicolon, found " ++ s.to_string)
          else
            match df w.to_string d.to_string t.to_string with
            | .error e => .err e
            | .ok dt => .cont (upd l dt) r4

/-- One iteration of the `while let Some(&nc) = iter.peek()` loop of
`parse_lease` (leases.rs lines 377-610), including the unconditional
`iter.next()` at the bottom of the loop body.  Branches appear in source
order; `done` covers the two ways the loop ends (end of stream falls out of
the `while`, a closing brace returns `Ok` without consuming it). -/
def leaseStep (df : DateFrom) (l : Lease) (ts : List LexItem) : StepResult :=
  match ts with
  | [] => .done l []
  | tok :: rest =>
    match tok with
    | .Opt .starts =>
      dateArm df l (fun l dt => { l with dates := { l.dates with starts := some dt } })
        "Weekday for start date expected" "Date for start date expected"
        "Time for start date expected" rest
    | .Opt .ends =>
      dateArm df l (fun l dt => { l with dates := { l.dates with ends := some dt } })
        "Weekday for end date expected" "Date for end date expected"
        "Time for end date expected" rest
    | .Opt .hardware =>
      match rest with
      | [] => .panic "Hardware type expected"
      | ht :: r1 =>
        match r1 with
        | [] => .panic "MAC address expected"
        | mac :: r2 =>
          semiThen { l with hardware := some { h_type := ht.to_string, mac := mac.to_string } } r2
    | .Opt .uid =>
      match rest with
      | [] => .panic "Client identifier expected"
      | u :: r1 => semiThen { l with uid := some u.to_string } r1
    | .Opt .clientHostname =>
      match rest with
      | [] => .panic "Client hostname expected"
      | u :: r1 => semiThen { l with client_hostname := some (unquote_hostname u.to_string) } r1
    | .Opt .hostname =>
      match rest with
      | [] => .panic "Hostname expected"
      | u :: r1 => semiThen { l with hostname := some (unquote_hostname u.to_string) } r1
    | .Opt .abandoned =>
      semiThen { l with abandoned := true } rest
    | .Opt .binding =>
      match rest with
      | [] => .panic "Binding state expected"
      | _ :: r1 =>
        match r1 with
        | [] => .panic "Binding identifier expected"
        | b :: r2 => semiThen { l with binding := some b.to_string } r2
    | .Opt .next =>
      match rest with
      | [] => .panic "Next binding state expected"
      | _ :: r1 =>
        match r1 with
        | [] => .panic "Next binding state expected"
        | _ :: r2 =>
          match r2 with
          | [] => .panic "Next binding state identifier expected"
          | b :: r3 => semiThen { l with next_binding := some b.to_string } r3
    | .Opt .rewind =>
      match rest with
      | [] => .panic "Rewind binding state expected"
      | _ :: r1 =>
        match r1 with
        | [] => .panic "Rewind binding state expected"
        | _ :: r2 =>
          match r2 with
          | [] => .panic "Next binding state identifier expected"
          | b :: r3 => semiThen { l with rewind_binding := some b.to_string } r3
    | .Opt .cltt =>
      dateArm df l (fun l dt => { l with cltt := some dt })
        "Weekday for cltt date expected" "Date for cltt date expected"
        "Time for cltt date expected" rest
    | .Opt .set =>
      match rest with
      | [] => .panic "Semicolon expected"
      | _ :: r1 => semiThen l r1
    | .Paren c =>
      if c = '\x7d' then .done l (LexItem.Paren c :: rest)
      else .err ("Unexpected option '" ++ (LexItem.Paren c).to_string ++ "'")
    | t => .err ("Unexpected option '" ++ t.to_string ++ "'")

/-- `parse_lease` from leases.rs, as iteration of `leaseStep` with explicit
fuel (one unit per loop iteration); `none` means the fuel ran out. -/
def parse_lease (df : DateFrom) : Nat → Lease → List LexItem →
    Option (PResult (Lease × List LexItem))
  | 0, _, _ => none
  | fuel + 1, l, ts =>
    match leaseStep df l ts with
    | .done l2 r => some (.ok (l2, r))
    | .err e => some (.err e)
    | .panic p => some (.panic p)
    | .cont l2 ts2 => parse_lease df fuel l2 ts2

/-- `ParserResult` from parser.rs. -/
structure ParserResult where
  leases : Leases
deriving DecidableEq

/-- Rendering of `format!("{:?}", it.peek())` on the peeked cursor, used in
the two `Err` messages of `parse_config` (the exact debug text is
approximated by the token's rendering; no claim depends on it). -/
def peekFmt : List LexItem → String
  | [] => "None"
  | t :: _ => "Some(" ++ t.to_string ++ ")"

/-- `parse_config` from parser.rs, with explicit fuel (one unit per iteration
of the `while let Some(token) = it.peek()` loop); `none` means the fuel ran
out.  The comment branch of the source is an empty block that does not
advance the cursor, so it is modelled as a recursive call on the very same
token list.  The duplicate-push check of lines 49-51 compares the outer,
never-mutated `lease` (always `Lease::new()`) against `Lease::new()` and is
kept verbatim.  `expect` / `unwrap` / `assert_eq!` outcomes are `panic`. -/
def parse_config (df : DateFrom) : Nat → Leases → List LexItem →
    Option (PResult ParserResult)
  | 0, _, _ => none
  | fuel + 1, acc, ts =>
    match ts with
    | [] => some (.ok ⟨acc⟩)
    | tok :: rest =>
      match tok with
      | .Decl .comment => parse_config df fuel acc (tok :: rest)
      | .Decl .lease =>
        let acc1 := if Lease.new ≠ Lease.new then acc.push Lease.new else acc
        match rest with
        | [] => some (.panic "IP address expected")
        | ipTok :: rest2 =>
          match rest2 with
          | [] => some (.panic "called Option::unwrap on a None value")
          | brTok :: rest3 =>
            if brTok = LexItem.Paren '\x7b' then
              match parse_lease df fuel { Lease.new with ip := ipTok.to_string } rest3 with
              | none => none
              | some (.err e) => some (.err e)
              | some (.panic p) => some (.panic p)
              | some (.ok (l, rem)) =>
                match rem with
                | [] =>
                  some (.err ("Expected end of section with '\x7d', got '" ++ peekFmt [] ++ "'"))
                | b :: rem2 =>
                  if b = LexItem.Paren '\x7d' then
                    parse_config df fuel (acc1.push l) rem2
                  else
                    some (.err ("Expected end of section with '\x7d', got '" ++
                      peekFmt (b :: rem2) ++ "'"))
            else
              some (.panic "assertion failed: left == right")
      | t => some (.err ("Unexpected " ++ peekFmt (t :: rest)))

/-- The active-at lookup as the spec words it, for comparison with
`Leases.active_by`: scan the log from the last record toward the first and
return the first one whose selected field value equals the queried value,
whose abandoned flag is false, and which is active at the reference instant;
a record is active at `t` unless its start instant is present and greater
than `t` or its end instant is present and less than `t` (absent bounds
never exclude). -/
def active_by_of_spec (ls : Leases) (field : LeasesField) (value : String)
    (t : Date) : Option Lease :=
  ls.val.reverse.find? (fun l =>
    (field.value_getter l == some value) && (l.abandoned == false) &&
      !(match l.dates.starts with
        | some s => decide (s > t)
        | none => false) &&
      !(match l.dates.ends with
        | some e => decide (e < t)
        | none => false))

/-- A record qualifies for the active-at lookup at value `value` and instant
`t`: its selected field equals the value, it is not abandoned, and every
present bound admits `t`. -/
def QualifiesAt (field : LeasesField) (value : String) (t : Date) (l : Lease) : Prop :=
  field.value_getter l = some value ∧ l.abandoned = false ∧
    (∀ s ∈ l.dates.starts, s ≤ t) ∧ (∀ e ∈ l.dates.ends, t ≤ e)

/-- A trivial concrete instant constructor used to instantiate witnesses:
every triple of strings parses to instant 0. -/
def dfZero : DateFrom := fun _ _ _ => Except.ok 0

end Dhcpd

namespace Dhcpd

theorem semiThen_cont {l2 : Lease} {r : List LexItem} {l' : Lease} {ts' : List LexItem} :
    semiThen l2 r = .cont l' ts' ↔ l' = l2 ∧ r = LexItem.Endl :: ts' := by
  cases r with
  | nil => simp [semiThen]
  | cons s r2 =>
    cases s
    case Endl =>
      constructor
      · intro h
        injection h with h1 h2
        exact ⟨h1.symm, by rw [h2]⟩
      · rintro ⟨rfl, h2⟩
        injection h2 with h3 h4
        subst h4
        rfl
    all_goals simp [semiThen]

theorem semiThen_done {l2 : Lease} {r : List LexItem} {a : Lease} {b : List LexItem} :
    semiThen l2 r ≠ .done a b := by
  cases r with
  | nil => simp [semiThen]
  | cons s r2 => cases s <;> simp [semiThen]

theorem dateArm_cont {df : DateFrom} {l : Lease} {upd : Lease → Date → Lease}
    {m1 m2 m3 : String} {r : List LexItem} {l' : Lease} {ts' : List LexItem}
    (h : dateArm df l upd m1 m2 m3 r = .cont l' ts') :
    (∃ dt, l' = upd l dt) ∧ ts' <:+ r := by
  rcases r with _ | ⟨w, _ | ⟨d, _ | ⟨t, _ | ⟨tz, r4⟩⟩⟩⟩
  · simp [dateArm] at h
  · simp [dateArm] at h
  · simp [dateArm] at h
  · simp [dateArm] at h
  · simp only [dateArm] at h
    split at h
    · rcases r4 with _ | ⟨s, r5⟩
      · simp at h
      · cases s
        case Endl =>
          rcases hdf : df w.to_string d.to_string t.to_string with e | dt
          · simp [hdf] at h
          · simp [hdf] at h
            obtain ⟨h1, h2⟩ := h
            subst h2
            exact ⟨⟨dt, h1.symm⟩, ⟨[w, d, t, tz, LexItem.Endl], rfl⟩⟩
        all_goals simp at h
    · rcases hdf : df w.to_string d.to_string t.to_string with e | dt
      · simp [hdf] at h
      · simp [hdf] at h
        obtain ⟨h1, h2⟩ := h
        subst h2
        exact ⟨⟨dt, h1.symm⟩, ⟨[w, d, t, tz], rfl⟩⟩

theorem dateArm_done {df : DateFrom} {l : Lease} {upd : Lease → Date → Lease}
    {m1 m2 m3 : String} {r : List LexItem} {a : Lease} {b : List LexItem} :
    dateArm df l upd m1 m2 m3 r ≠ .done a b := by
  rcases r with _ | ⟨w, _ | ⟨d, _ | ⟨t, _ | ⟨tz, r4⟩⟩⟩⟩
  · simp [dateArm]
  · simp [dateArm]
  · simp [dateArm]
  · simp [dateArm]
  · simp only [dateArm]
    split
    · rcases r4 with _ | ⟨s, r5⟩
      · simp
      · cases s
        case Endl =>
          rcases hdf : df w.to_string d.to_string t.to_string with e | dt <;> simp [hdf]
        all_goals simp
    · rcases hdf : df w.to_string d.to_string t.to_string with e | dt <;> simp [hdf]

theorem leaseStep_cont_facts {df : DateFrom} {l : Lease} {ts : List LexItem}
    {l' : Lease} {ts' : List LexItem}
    (h : leaseStep df l ts = .cont l' ts') :
    ts' <:+ ts ∧ ts'.length < ts.length ∧ l'.ip = l.ip := by
  cases ts with
  | nil => simp [leaseStep] at h
  | cons tok rest =>
    cases tok with
    | Endl => simp [leaseStep] at h
    | Decl k => simp [leaseStep] at h
    | Plaintext s => simp [leaseStep] at h
    | Paren c =>
      simp only [leaseStep] at h
      split at h <;> simp at h
    | Opt k =>
      cases k
      case starts =>
        simp only [leaseStep] at h
        obtain ⟨⟨dt, rfl⟩, hs⟩ := dateArm_cont h
        exact ⟨hs.trans (List.suffix_cons _ _),
          Nat.lt_of_le_of_lt hs.length_le (by simp), rfl⟩
      case ends =>
        simp only [leaseStep] at h
        obtain ⟨⟨dt, rfl⟩, hs⟩ := dateArm_cont h
        exact ⟨hs.trans (List.suffix_cons _ _),
          Nat.lt_of_le_of_lt hs.length_le (by simp), rfl⟩
      case cltt =>
        simp only [leaseStep] at h
        obtain ⟨⟨dt, rfl⟩, hs⟩ := dateArm_cont h
        exact ⟨hs.trans (List.suffix_cons _ _),
          Nat.lt_of_le_of_lt hs.length_le (by simp), rfl⟩
      case abandoned =>
        simp only [leaseStep] at h
        rw [semiThen_cont] at h
        obtain ⟨rfl, rfl⟩ := h
        exact ⟨⟨[LexItem.Opt .abandoned, LexItem.Endl], rfl⟩,
          by simp only [List.length_cons]; omega, rfl⟩
      case hardware =>
        rcases rest with _ | ⟨a, _ | ⟨b, r2⟩⟩
        · simp [leaseStep] at h
        · simp [leaseStep] at h
        · simp only [leaseStep] at h
          rw [semiThen_cont] at h
          obtain ⟨rfl, rfl⟩ := h
          exact ⟨⟨[LexItem.Opt .hardware, a, b, LexItem.Endl], rfl⟩,
            by simp only [List.length_cons]; omega, rfl⟩
      case uid =>
        rcases rest with _ | ⟨a, r1⟩
        · simp [leaseStep] at h
        · simp only [leaseStep] at h
          rw [semiThen_cont] at h
          obtain ⟨rfl, rfl⟩ := h
          exact ⟨⟨[LexItem.Opt .uid, a, LexItem.Endl], rfl⟩,
            by simp only [List.length_cons]; omega, rfl⟩
      case clientHostname =>
        rcases rest with _ | ⟨a, r1⟩
        · simp [leaseStep] at h
        · simp only [leaseStep] at h
          rw [semiThen_cont] at h
          obtain ⟨rfl, rfl⟩ := h
          exact ⟨⟨[LexItem.Opt .clientHostname, a, LexItem.Endl], rfl⟩,
            by simp only [List.length_cons]; omega, rfl⟩
      case hostname =>
        rcases rest with _ | ⟨a, r1⟩
        · simp [leaseStep] at h
        · simp only [leaseStep] at h
          rw [semiThen_cont] at h
          obtain ⟨rfl, rfl⟩ := h
          exact ⟨⟨[LexItem.Opt .hostname, a, LexItem.Endl], rfl⟩,
            by simp only [List.length_cons]; omega, rfl⟩
      case binding =>
        rcases rest with _ | ⟨a, _ | ⟨b, r2⟩⟩
        · simp [leaseStep] at h
        · simp [leaseStep] at h
        · simp only [leaseStep] at h
          rw [semiThen_cont] at h
          obtain ⟨rfl, rfl⟩ := h
          exact ⟨⟨[LexItem.Opt .binding, a, b, LexItem.Endl], rfl⟩,
            by simp only [List.length_cons]; omega, rfl⟩
      case next =>
        rcases rest with _ | ⟨a, _ | ⟨b, _ | ⟨c, r3⟩⟩⟩
        · simp [leaseStep] at h
        · simp [leaseStep] at h
        · simp [leaseStep] at h
        · simp only [leaseStep] at h
          rw [semiThen_cont] at h
          obtain ⟨rfl, rfl⟩ := h
          exact ⟨⟨[LexItem.Opt .next, a, b, c, LexItem.Endl], rfl⟩,
            by simp only [List.length_cons]; omega, rfl⟩
      case rewind =>
        rcases rest with _ | ⟨a, _ | ⟨b, _ | ⟨c, r3⟩⟩⟩
        · simp [leaseStep] at h
        · simp [leaseStep] at h
        · simp [leaseStep] at h
        · simp only [leaseStep] at h
          rw [semiThen_cont] at h
          obtain ⟨rfl, rfl⟩ := h
          exact ⟨⟨[LexItem.Opt .rewind, a, b, c, LexItem.Endl], rfl⟩,
            by simp only [List.length_cons]; omega, rfl⟩
      case set =>
        rcases rest with _ | ⟨a, r1⟩
        · simp [leaseStep] at h
        · simp only [leaseStep] at h
          rw [semiThen_cont] at h
          obtain ⟨rfl, rfl⟩ := h
          exact ⟨⟨[LexItem.Opt .set, a, LexItem.Endl], rfl⟩,
            by simp only [List.length_cons]; omega, rfl⟩

theorem leaseStep_done_facts {df : DateFrom} {l : Lease} {ts : List LexItem}
    {l' : Lease} {r : List LexItem}
    (h : leaseStep df l ts = .done l' r) : l' = l ∧ r = ts := by
  cases ts with
  | nil =>
    simp only [leaseStep] at h
    injection h with h1 h2
    exact ⟨h1.symm, h2.symm⟩
  | cons tok rest =>
    cases tok with
    | Endl => simp [leaseStep] at h
    | Decl k => simp [leaseStep] at h
    | Plaintext s => simp [leaseStep] at h
    | Paren c =>
      simp only [leaseStep] at h
      split at h
      · injection h with h1 h2
        exact ⟨h1.symm, h2.symm⟩
      · simp at h
    | Opt k =>
      cases k
      case starts => simp only [leaseStep] at h; exact absurd h dateArm_done
      case ends => simp only [leaseStep] at h; exact absurd h dateArm_done
      case cltt => simp only [leaseStep] at h; exact absurd h dateArm_done
      case abandoned => simp only [leaseStep] at h; exact absurd h semiThen_done
      case hardware =>
        rcases rest with _ | ⟨a, _ | ⟨b, r2⟩⟩
        · simp [leaseStep] at h
        · simp [leaseStep] at h
        · simp only [leaseStep] at h
          exact absurd h semiThen_done
      case uid =>
        rcases rest with _ | ⟨a, r1⟩
        · simp [leaseStep] at h
        · simp only [leaseStep] at h
          exact absurd h semiThen_done
      case clientHostname =>
        rcases rest with _ | ⟨a, r1⟩
        · simp [leaseStep] at h
        · simp only [leaseStep] at h
          exact absurd h semiThen_done
      case hostname =>
        rcases rest with _ | ⟨a, r1⟩
        · simp [leaseStep] at h
        · simp only [leaseStep] at h
          exact absurd h semiThen_done
      case binding =>
        rcases rest with _ | ⟨a, _ | ⟨b, r2⟩⟩
        · simp [leaseStep] at h
        · simp [leaseStep] at h
        · simp only [leaseStep] at h
          exact absurd h semiThen_done
      case next =>
        rcases rest with _ | ⟨a, _ | ⟨b, _ | ⟨c, r3⟩⟩⟩
        · simp [leaseStep] at h
        · simp [leaseStep] at h
        · simp [leaseStep] at h
        · simp only [leaseStep] at h
          exact absurd h semiThen_done
      case rewind =>
        rcases rest with _ | ⟨a, _ | ⟨b, _ | ⟨c, r3⟩⟩⟩
        · simp [leaseStep] at h
        · simp [leaseStep] at h
        · simp [leaseStep] at h
        · simp only [leaseStep] at h
          exact absurd h semiThen_done
      case set =>
        rcases rest with _ | ⟨a, r1⟩
        · simp [leaseStep] at h
        · simp only [leaseStep] at h
          exact absurd h semiThen_done

theorem parse_lease_ok_facts {df : DateFrom} {f : Nat} {l : Lease} {ts : List LexItem}
    {l' : Lease} {rem : List LexItem}
    (h : parse_lease df f l ts = some (.ok (l', rem))) :
    rem <:+ ts ∧ l'.ip = l.ip := by
  induction f generalizing l ts with
  | zero => simp [parse_lease] at h
  | succ n ih =>
    cases hstep : leaseStep df l ts with
    | done l2 r =>
      simp only [parse_lease, hstep, Option.some.injEq, PResult.ok.injEq,
        Prod.mk.injEq] at h
      obtain ⟨rfl, rfl⟩ := h
      obtain ⟨rfl, rfl⟩ := leaseStep_done_facts hstep
      exact ⟨List.suffix_rfl, rfl⟩
    | err e => simp [parse_lease, hstep] at h
    | panic p => simp [parse_lease, hstep] at h
    | cont l2 ts2 =>
      simp only [parse_lease, hstep] at h
      obtain ⟨hsuf, hlen, hip⟩ := leaseStep_cont_facts hstep
      obtain ⟨hs2, hip2⟩ := ih h
      exact ⟨hs2.trans hsuf, hip2.trans hip⟩

theorem parse_lease_total {df : DateFrom} {f : Nat} {l : Lease} {ts : List LexItem}
    (hf : ts.length + 1 ≤ f) : (parse_lease df f l ts).isSome := by
  induction f generalizing l ts with
  | zero => omega
  | succ n ih =>
    cases hstep : leaseStep df l ts with
    | done l2 r => simp [parse_lease, hstep]
    | err e => simp [parse_lease, hstep]
    | panic p => simp [parse_lease, hstep]
    | cont l2 ts2 =>
      obtain ⟨_, hlen, _⟩ := leaseStep_cont_facts hstep
      simp only [parse_lease, hstep]
      exact ih (by omega)

theorem parse_config_total {df : DateFrom} {f : Nat} {acc : Leases} {ts : List LexItem}
    (hc : LexItem.Decl ConfigKeyword.comment ∉ ts) (hf : ts.length + 1 ≤ f) :
    (parse_config df f acc ts).isSome := by
  induction f generalizing acc ts with
  | zero => omega
  | succ n ih =>
    cases ts with
    | nil => simp [parse_config]
    | cons tok rest =>
      cases tok with
      | Endl => simp [parse_config]
      | Paren c => simp [parse_config]
      | Opt k => simp [parse_config]
      | Plaintext s => simp [parse_config]
      | Decl k =>
        cases k with
        | comment => exact absurd (List.mem_cons_self _ _) hc
        | lease =>
          rcases rest with _ | ⟨ipTok, _ | ⟨brTok, rest3⟩⟩
          · simp [parse_config]
          · simp [parse_config]
          · simp only [List.length_cons] at hf
            simp only [parse_config]
            have hacc : ¬(Lease.new ≠ Lease.new) := fun hne => hne rfl
            rw [if_neg hacc]
            by_cases hbr : brTok = LexItem.Paren '\x7b'
            · rw [if_pos hbr]
              cases hpl : parse_lease df n { Lease.new with ip := ipTok.to_string } rest3 with
              | none =>
                have htot := @parse_lease_total df n
                  { Lease.new with ip := ipTok.to_string } rest3 (by omega)
                rw [hpl] at htot
                simp at htot
              | some pr =>
                cases pr with
                | err e => simp [hpl]
                | panic p => simp [hpl]
                | ok a =>
                  obtain ⟨l, rem⟩ := a
                  obtain ⟨hsuf, _⟩ := parse_lease_ok_facts hpl
                  rcases rem with _ | ⟨b, rem2⟩
                  · simp [hpl]
                  · simp only [hpl]
                    by_cases hb : b = LexItem.Paren '\x7d'
                    · rw [if_pos hb]
                      have hs2 : rem2 <:+ rest3 :=
                        (List.suffix_cons b rem2).trans hsuf
                      have hc2 : LexItem.Decl ConfigKeyword.comment ∉ rem2 := by
                        intro hm
                        exact hc (List.mem_cons_of_mem _ (List.mem_cons_of_mem _
                          (List.mem_cons_of_mem _ (hs2.subset hm))))
                      have hl2 := hsuf.length_le
                      simp only [List.length_cons] at hl2
                      exact ih hc2 (by omega)
                    · rw [if_neg hb]
                      simp
            · rw [if_neg hbr]
              simp

theorem is_active_at_iff {l : Lease} {t : Date} :
    l.is_active_at t = true ↔ (∀ s ∈ l.dates.starts, s ≤ t) ∧ (∀ e ∈ l.dates.ends, t ≤ e) := by
  rcases hs : l.dates.starts with _ | s <;> rcases he : l.dates.ends with _ | e <;>
    simp [Lease.is_active_at, hs, he] <;> split_ifs with h1 h2 <;> simp <;> omega

theorem active_by_pred_iff {field : LeasesField} {value : String} {t : Date} {l : Lease} :
    (l.is_active_at t && !l.abandoned &&
      (match field.value_getter l with
       | some v => v == value
       | none => false)) = true ↔ QualifiesAt field value t l := by
  rcases hv : field.value_getter l with _ | v <;>
    simp [QualifiesAt, hv, Bool.and_eq_true, is_active_at_iff] <;> tauto

theorem spec_pred_iff {field : LeasesField} {value : String} {t : Date} {l : Lease} :
    ((field.value_getter l == some value) && (l.abandoned == false) &&
      !(match l.dates.starts with
        | some s => decide (s > t)
        | none => false) &&
      !(match l.dates.ends with
        | some e => decide (e < t)
        | none => false)) = true ↔ QualifiesAt field value t l := by
  rcases hs : l.dates.starts with _ | s <;> rcases he : l.dates.ends with _ | e <;>
    simp [QualifiesAt, hs, he, Bool.and_eq_true] <;> tauto

theorem find?_congr_fun {α : Type} {p q : α → Bool} (h : ∀ a, p a = q a) :
    ∀ l : List α, l.find? p = l.find? q := by
  intro l
  induction l with
  | nil => rfl
  | cons a l ih =>
    cases hpa : p a with
    | true =>
      rw [List.find?_cons_of_pos _ hpa, List.find?_cons_of_pos _ (by rw [← h a, hpa])]
    | false =>
      rw [List.find?_cons_of_neg _ (by simp [hpa]),
        List.find?_cons_of_neg _ (by simp [← h a, hpa]), ih]

theorem mem_collect_foldl (g : Lease → Option String) (ll : List Lease)
    (acc : Finset String) (s : String) :
    s ∈ ll.foldl (fun r l =>
      match g l with
      | some h => insert h r
      | none => r) acc ↔ s ∈ acc ∨ ∃ l ∈ ll, g l = some s := by
  induction ll generalizing acc with
  | nil => simp
  | cons x ll ih =>
    rw [List.foldl_cons, ih]
    rcases hx : g x with _ | v
    · simp [hx]
    · simp only [hx, Finset.mem_insert, List.mem_cons]
      constructor
      · rintro ((rfl | hacc) | ⟨l, hl, hgl⟩)
        · exact Or.inr ⟨x, Or.inl rfl, by rw [hx]⟩
        · exact Or.inl hacc
        · exact Or.inr ⟨l, Or.inr hl, hgl⟩
      · rintro (hacc | ⟨l, rfl | hl, hgl⟩)
        · exact Or.inl (Or.inr hacc)
        · rw [hx] at hgl
          injection hgl with hv
          exact Or.inl (Or.inl hv.symm)
        · exact Or.inr ⟨l, hl, hgl⟩

theorem unquote_wrap (s : String) :
    unquote_hostname ("\x22" ++ s ++ "\x22") = unquote_hostname s := by
  simp only [unquote_hostname, String.data_append]
  congr 1
  simp [List.filter_append]

theorem dateArm_tz {df : DateFrom} {l : Lease} {upd : Lease → Date → Lease}
    {m1 m2 m3 : String} {w d t tz : LexItem} {rest : List LexItem}
    (h : tz.to_string ≠ ";") :
    dateArm df l upd m1 m2 m3 (w :: d :: t :: tz :: LexItem.Endl :: rest) =
      dateArm df l upd m1 m2 m3 (w :: d :: t :: LexItem.Endl :: rest) := by
  simp only [dateArm]
  rw [if_pos h, if_neg (fun hne => hne rfl)]

/-- C1: the claim says the declaration parser skips a top-level comment token
and terminates.  In the source the comment branch of `parse_config` is an
empty block that never advances the cursor, so on any stream whose next
top-level token is a comment declaration the loop re-peeks the same token
forever: at every fuel the fueled model returns `none`, i.e. the parser never
returns a result.  This refutes the termination part of the claim and
confirms the spec's own open question. -/
theorem C1_comment_never_terminates (df : DateFrom) (fuel : Nat) (acc : Leases)
    (rest : List LexItem) :
    parse_config df fuel acc (LexItem.Decl ConfigKeyword.comment :: rest) = none := by
  induction fuel with
  | zero => rfl
  | succ n ih =>
    simp only [parse_config]
    exact ih

/-- C2 counterexample: at the concrete token stream `[lease]` (a lease
declaration with the required address token missing at end of stream), the
parser's outcome is the `expect`-panic "IP address expected" — a process
abort, not a named parse-failure value carried in the returned result — so
the claim that every missing expected token yields a failure value in the
result (and never any other outcome) is false. -/
theorem C2_counterexample_missing_token_panics :
    parse_config dfZero 1 Leases.new [LexItem.Decl ConfigKeyword.lease] =
      some (.panic "IP address expected") := by decide

/-- C2 (amended): for every token stream that contains no top-level comment
declaration, `parse_config` terminates and returns a value of its outcome
type — the assembled lease log, a named failure value, or a panic (missing
required tokens and the brace assertion abort via panic rather than via a
failure value; streams with a top-level comment token never terminate, see
C1). -/
theorem C2_amended_parse_config_total (df : DateFrom) (ts : List LexItem)
    (hc : LexItem.Decl ConfigKeyword.comment ∉ ts) :
    (parse_config df (ts.length + 1) Leases.new ts).isSome :=
  parse_config_total hc (Nat.le_refl _)

/-- C2 witness: the amended totality theorem applied to a concrete
comment-free stream of one well-formed empty lease block. -/
theorem C2_amended_witness :
    (LexItem.Decl ConfigKeyword.comment ∉
        [LexItem.Decl ConfigKeyword.lease, LexItem.Plaintext "10.0.0.5",
         LexItem.Paren '\x7b', LexItem.Paren '\x7d']) ∧
      (parse_config dfZero
        ([LexItem.Decl ConfigKeyword.lease, LexItem.Plaintext "10.0.0.5",
          LexItem.Paren '\x7b', LexItem.Paren '\x7d'].length + 1) Leases.new
        [LexItem.Decl ConfigKeyword.lease, LexItem.Plaintext "10.0.0.5",
         LexItem.Paren '\x7b', LexItem.Paren '\x7d']).isSome :=
  ⟨by decide, C2_amended_parse_config_total dfZero _ (by decide)⟩

/-- C3: the active-at lookup equals the spec's wording — a scan of the log
from the last inserted record toward the first returning the first record
whose selected field equals the queried value, whose abandoned flag is false,
and which is active at the instant (active unless a present start instant is
greater than the instant or a present end instant is less than it) — and it
returns nothing exactly when no record of the log qualifies. -/
theorem C3_active_by_matches_spec (ls : Leases) (field : LeasesField)
    (value : String) (t : Date) :
    ls.active_by field value t = active_by_of_spec ls field value t ∧
      (ls.active_by field value t = none ↔
        ∀ l ∈ ls.val, ¬QualifiesAt field value t l) := by
  constructor
  · exact find?_congr_fun
      (fun l => Bool.eq_iff_iff.mpr (active_by_pred_iff.trans spec_pred_iff.symm)) _
  · simp only [Leases.active_by, List.find?_eq_none, List.mem_reverse]
    exact forall_congr' fun l => imp_congr_right fun _ => not_congr active_by_pred_iff

/-- C4: a `set` statement (keyword, one argument token, terminator) inside a
lease block is recognized and skipped: the lease-body parser's result on the
block starting with the statement is exactly its result on the block with
the statement removed — no record field is touched (one fuel unit accounts
for the skipped loop iteration). -/
theorem C4_set_statement_skipped (df : DateFrom) (fuel : Nat) (l : Lease)
    (arg : LexItem) (rest : List LexItem) :
    parse_lease df (fuel + 1) l (LexItem.Opt .set :: arg :: LexItem.Endl :: rest) =
      parse_lease df fuel l rest := rfl

/-- C5: each lease block contributes exactly one record, appended at the end
of the log, and parsing continues after the closing brace: whenever the
lease-body parser succeeds on the block body leaving the closing brace, the
declaration parser on `lease <addr> { body` equals the declaration parser on
the remaining input with the block's single record appended to the
accumulator; hence records appear one per block, in source order. -/
theorem C5_one_record_per_block (df : DateFrom) (fuel : Nat) (acc : Leases)
    (ipTok : LexItem) (body : List LexItem) (l : Lease) (rest : List LexItem)
    (h : parse_lease df fuel { Lease.new with ip := ipTok.to_string } body =
      some (.ok (l, LexItem.Paren '\x7d' :: rest))) :
    parse_config df (fuel + 1) acc
        (LexItem.Decl .lease :: ipTok :: LexItem.Paren '\x7b' :: body) =
      parse_config df fuel (acc.push l) rest := by
  simp [parse_config, h]

/-- C5 witness: two well-formed lease blocks for the same address yield a log
of length exactly 2, with the second block's record (the one carrying
client-hostname "foo") at the higher index. -/
theorem C5_witness_two_blocks :
    parse_config dfZero 4 Leases.new
      [LexItem.Decl .lease, LexItem.Plaintext "10.0.0.5", LexItem.Paren '\x7b',
       LexItem.Paren '\x7d',
       LexItem.Decl .lease, LexItem.Plaintext "10.0.0.5", LexItem.Paren '\x7b',
       LexItem.Opt .clientHostname, LexItem.Plaintext "foo", LexItem.Endl,
       LexItem.Paren '\x7d'] =
      some (.ok ⟨⟨[{ Lease.new with ip := "10.0.0.5" },
        { Lease.new with ip := "10.0.0.5", client_hostname := some "foo" }]⟩⟩) :=
  (C5_one_record_per_block dfZero 3 Leases.new (LexItem.Plaintext "10.0.0.5")
      [LexItem.Paren '\x7d',
       LexItem.Decl .lease, LexItem.Plaintext "10.0.0.5", LexItem.Paren '\x7b',
       LexItem.Opt .clientHostname, LexItem.Plaintext "foo", LexItem.Endl,
       LexItem.Paren '\x7d']
      { Lease.new with ip := "10.0.0.5" }
      [LexItem.Decl .lease, LexItem.Plaintext "10.0.0.5", LexItem.Paren '\x7b',
       LexItem.Opt .clientHostname, LexItem.Plaintext "foo", LexItem.Endl,
       LexItem.Paren '\x7d'] (by decide)).trans
    ((C5_one_record_per_block dfZero 2
        (Leases.new.push { Lease.new with ip := "10.0.0.5" })
        (LexItem.Plaintext "10.0.0.5")
        [LexItem.Opt .clientHostname, LexItem.Plaintext "foo", LexItem.Endl,
         LexItem.Paren '\x7d']
        { Lease.new with ip := "10.0.0.5", client_hostname := some "foo" }
        [] (by decide)).trans (by decide))

/-- C6: in a log of the shape `l1 ++ A :: l2 ++ B :: l3` where `A` and `B`
both carry the queried leased address and no other region does, the
exact-match-by-address lookup returns `B` (highest insertion index wins) and
the all-matches lookup returns `[A, B]` in original log order. -/
theorem C6_reverse_scan_priority (l1 l2 l3 : List Lease) (A B : Lease)
    (ip : String) (hA : A.ip = ip) (hB : B.ip = ip)
    (h1 : ∀ x ∈ l1, x.ip ≠ ip) (h2 : ∀ x ∈ l2, x.ip ≠ ip)
    (h3 : ∀ x ∈ l3, x.ip ≠ ip) :
    Leases.by_leased ⟨l1 ++ A :: (l2 ++ B :: l3)⟩ ip = some B ∧
      Leases.by_leased_all ⟨l1 ++ A :: (l2 ++ B :: l3)⟩ ip = [A, B] := by
  constructor
  · show (l1 ++ A :: (l2 ++ B :: l3)).reverse.find? (fun l => l.ip == ip) = some B
    have hre : (l1 ++ A :: (l2 ++ B :: l3)).reverse =
        l3.reverse ++ B :: (l2.reverse ++ A :: l1.reverse) := by
      simp
    have hn3 : l3.reverse.find? (fun l : Lease => l.ip == ip) = none :=
      List.find?_eq_none.mpr fun x hx => by
        simp only [beq_iff_eq]
        exact h3 x (List.mem_reverse.mp hx)
    rw [hre, List.find?_append, hn3, Option.none_or]
    exact List.find?_cons_of_pos _ (by simp [hB])
  · show (l1 ++ A :: (l2 ++ B :: l3)).filter (fun l => l.ip == ip) = [A, B]
    have e1 : l1.filter (fun l : Lease => l.ip == ip) = [] :=
      List.filter_eq_nil_iff.mpr fun a ha => by
        simp only [beq_iff_eq]
        exact h1 a ha
    have e2 : l2.filter (fun l : Lease => l.ip == ip) = [] :=
      List.filter_eq_nil_iff.mpr fun a ha => by
        simp only [beq_iff_eq]
        exact h2 a ha
    have e3 : l3.filter (fun l : Lease => l.ip == ip) = [] :=
      List.filter_eq_nil_iff.mpr fun a ha => by
        simp only [beq_iff_eq]
        exact h3 a ha
    simp [List.filter_append, List.filter_cons, e1, e2, e3, hA, hB]

/-- C6 witness: the reverse-scan priority theorem at a concrete two-record
log with the same address. -/
theorem C6_witness :
    Leases.by_leased ⟨[{ Lease.new with ip := "10.0.0.9", hostname := some "a" },
        { Lease.new with ip := "10.0.0.9", hostname := some "b" }]⟩ "10.0.0.9" =
      some { Lease.new with ip := "10.0.0.9", hostname := some "b" } ∧
      Leases.by_leased_all ⟨[{ Lease.new with ip := "10.0.0.9", hostname := some "a" },
        { Lease.new with ip := "10.0.0.9", hostname := some "b" }]⟩ "10.0.0.9" =
      [{ Lease.new with ip := "10.0.0.9", hostname := some "a" },
       { Lease.new with ip := "10.0.0.9", hostname := some "b" }] :=
  C6_reverse_scan_priority [] [] []
    { Lease.new with ip := "10.0.0.9", hostname := some "a" }
    { Lease.new with ip := "10.0.0.9", hostname := some "b" } "10.0.0.9"
    rfl rfl (by simp) (by simp) (by simp)

/-- C7: for each of the `starts`, `ends` and `cltt` statements, the
lease-body parser's result on the statement with a trailing timezone token
(any token not rendering as the terminator) before the terminator is exactly
its result on the statement without it: the timezone token is consumed and
discarded, and the stored instant is built from the same three literal
tokens. -/
theorem C7_timezone_token_discarded (df : DateFrom) (fuel : Nat) (l : Lease)
    (w d t tz : LexItem) (rest : List LexItem) (h : tz.to_string ≠ ";") :
    (parse_lease df (fuel + 1) l
        (LexItem.Opt .starts :: w :: d :: t :: tz :: LexItem.Endl :: rest) =
      parse_lease df (fuel + 1) l
        (LexItem.Opt .starts :: w :: d :: t :: LexItem.Endl :: rest)) ∧
      (parse_lease df (fuel + 1) l
          (LexItem.Opt .ends :: w :: d :: t :: tz :: LexItem.Endl :: rest) =
        parse_lease df (fuel + 1) l
          (LexItem.Opt .ends :: w :: d :: t :: LexItem.Endl :: rest)) ∧
      (parse_lease df (fuel + 1) l
          (LexItem.Opt .cltt :: w :: d :: t :: tz :: LexItem.Endl :: rest) =
        parse_lease df (fuel + 1) l
          (LexItem.Opt .cltt :: w :: d :: t :: LexItem.Endl :: rest)) := by
  refine ⟨?_, ?_, ?_⟩ <;>
    · simp only [parse_lease, leaseStep]
      rw [dateArm_tz h]

/-- C7 witness: the timezone-discarding theorem at a concrete `starts`
statement with timezone token "UTC". -/
theorem C7_witness :
    ((LexItem.Plaintext "UTC").to_string ≠ ";") ∧
      (parse_lease dfZero 1 Lease.new
          [LexItem.Opt .starts, LexItem.Plaintext "4", LexItem.Plaintext "2022/01/01",
           LexItem.Plaintext "10:00:00", LexItem.Plaintext "UTC", LexItem.Endl] =
        parse_lease dfZero 1 Lease.new
          [LexItem.Opt .starts, LexItem.Plaintext "4", LexItem.Plaintext "2022/01/01",
           LexItem.Plaintext "10:00:00", LexItem.Endl]) :=
  ⟨by decide, (C7_timezone_token_discarded dfZero 0 Lease.new
    (LexItem.Plaintext "4") (LexItem.Plaintext "2022/01/01")
    (LexItem.Plaintext "10:00:00") (LexItem.Plaintext "UTC") [] (by decide)).1⟩

/-- C8 counterexample: the distinct-value collectors do not filter out the
empty string — a log holding one record whose hostname (resp.
client-hostname) is the empty string yields a collector set that contains
the empty string, refuting "no empty string is ever an element of either
returned set". -/
theorem C8_counterexample_empty_hostname :
    "" ∈ Leases.hostnames ⟨[{ Lease.new with hostname := some "" }]⟩ ∧
      "" ∈ Leases.client_hostnames ⟨[{ Lease.new with client_hostname := some "" }]⟩ := by
  constructor <;> decide

/-- C8 (amended): the collectors return the set of all hostname (resp.
client-hostname) values that are present (the field is set) in the log —
with no emptiness filtering, so the empty string is an element exactly when
some record carries it. -/
theorem C8_collectors_membership (ls : Leases) (s : String) :
    (s ∈ ls.hostnames ↔ ∃ l ∈ ls.val, l.hostname = some s) ∧
      (s ∈ ls.client_hostnames ↔ ∃ l ∈ ls.val, l.client_hostname = some s) :=
  ⟨(mem_collect_foldl (fun l => l.hostname) ls.val ∅ s).trans (by simp),
   (mem_collect_foldl (fun l => l.client_hostname) ls.val ∅ s).trans (by simp)⟩

/-- C9: the stored hostname value is the literal with every double-quote
character removed (the unquoting is exactly a filter dropping each
double-quote, not a matched-pair strip), hence wrapping a literal in double
quotes stores exactly the same value as the unwrapped literal: the lease-body
parser's results on the quoted and unquoted `hostname` (and
`client-hostname`) statements coincide. -/
theorem C9_unquote_round_trip (df : DateFrom) (fuel : Nat) (l : Lease)
    (s : String) (rest : List LexItem) :
    (unquote_hostname s).data = s.data.filter (fun c => c ≠ '\x22') ∧
      unquote_hostname ("\x22" ++ s ++ "\x22") = unquote_hostname s ∧
      (parse_lease df (fuel + 1) l
          (LexItem.Opt .hostname :: LexItem.Plaintext ("\x22" ++ s ++ "\x22") ::
            LexItem.Endl :: rest) =
        parse_lease df (fuel + 1) l
          (LexItem.Opt .hostname :: LexItem.Plaintext s :: LexItem.Endl :: rest)) ∧
      (parse_lease df (fuel + 1) l
          (LexItem.Opt .clientHostname :: LexItem.Plaintext ("\x22" ++ s ++ "\x22") ::
            LexItem.Endl :: rest) =
        parse_lease df (fuel + 1) l
          (LexItem.Opt .clientHostname :: LexItem.Plaintext s :: LexItem.Endl :: rest)) := by
  refine ⟨rfl, unquote_wrap s, ?_, ?_⟩ <;>
    simp only [parse_lease, leaseStep, semiThen, LexItem.to_string, unquote_wrap]

/-- C10: the lease-body parser never modifies the leased-address field: on
any successful run, the returned record's `ip` equals the initial record's
`ip` (the address pre-seeded by the declaration parser). -/
theorem C10_parse_lease_preserves_ip (df : DateFrom) (f : Nat) (l : Lease)
    (ts : List LexItem) (l' : Lease) (rem : List LexItem)
    (h : parse_lease df f l ts = some (.ok (l', rem))) : l'.ip = l.ip :=
  (parse_lease_ok_facts h).2

/-- C10 witness: the frame theorem at a concrete block body containing an
`abandoned` statement, with the seeded address preserved. -/
theorem C10_witness :
    ({ Lease.new with ip := "10.0.0.5", abandoned := true } : Lease).ip =
      ({ Lease.new with ip := "10.0.0.5" } : Lease).ip :=
  C10_parse_lease_preserves_ip dfZero 2 { Lease.new with ip := "10.0.0.5" }
    [LexItem.Opt .abandoned, LexItem.Endl, LexItem.Paren '\x7d']
    { Lease.new with ip := "10.0.0.5", abandoned := true } [LexItem.Paren '\x7d']
    (by decide)
